import Mathlib

/-!
Verification of the training script `b_CNN_model_ResNet_wrs_lr.py`
(dataset partitioning, class-balanced sampling, epoch runner,
training orchestrator with best-checkpoint tracking, and the
learning-rate sweep).

Machine floats: the script computes the split sizes with Python
floats (`int(0.6 * N)` and `int((N - train) / 2)`).  We embed them
as exact natural-number operations; the doc comments of the
definitions record why the IEEE-double computation agrees with the
exact one on every dataset size the program can meet.
-/

namespace CNNResNet

/-- Source line 43: `train_size = int(0.6 * len(dataset))`.
Python evaluates `0.6 * N` in IEEE double precision, where the literal
`0.6` denotes `5404319552844595 / 2^53 = 3/5 - 1/(5 * 2^53)`, and `int`
truncates toward zero.  For every `N < 2^51` (far above any image
dataset) the rounded double product truncates to `⌊3N/5⌋`: when `3N/5`
is an integer the exact product `3N/5 - N/(5·2^53)` is within half an
ulp of `3N/5`, so the product rounds to exactly `3N/5`; otherwise
the fractional part of `3N/5` is at least `1/5`, which dwarfs both the
`N/(5·2^53)` deficit and the final rounding error, so truncation still
yields `⌊3N/5⌋`.  We therefore embed the computation as exact floor
division. -/
def train_size (N : ℕ) : ℕ := 3 * N / 5

/-- Source line 44: `val_size = int((len(dataset) - train_size) / 2)`.
Python float division of an integer `k < 2^53` by 2 is exact, so the
truncation equals the natural floor division `k / 2`. -/
def val_size (N : ℕ) : ℕ := (N - train_size N) / 2

/-- Source line 45: `test_size = val_size`. -/
def test_size (N : ℕ) : ℕ := val_size N

/-- The three index subsets produced by `random_split`. -/
structure SplitResult where
  train : List ℕ
  val : List ℕ
  test : List ℕ
deriving DecidableEq, Repr

/-- Source line 46:
`torch.utils.data.random_split(dataset, [train_size, val_size, test_size])`.
PyTorch draws a random permutation of `range(len(dataset))` and cuts it
into consecutive chunks of the requested integer lengths; it raises
`ValueError("Sum of input lengths does not equal the length of the
input dataset!")` whenever the lengths do not sum to `len(dataset)`.
We model the permutation as an explicit argument `perm` (the claims
hypothesise that it is a duplicate-free enumeration of `range N`) and
the raised error as `none`. -/
def random_split (N : ℕ) (perm : List ℕ) : Option SplitResult :=
  if train_size N + val_size N + test_size N = N then
    some ⟨perm.take (train_size N),
          ((perm.drop (train_size N)).take (val_size N)),
          (((perm.drop (train_size N)).drop (val_size N)).take (test_size N))⟩
  else none

/-- Source line 93: `dataset_sizes["train"] = len(train_dataset)`. -/
def dataset_sizes_train (sr : SplitResult) : ℕ := sr.train.length

/-- Source line 94: `dataset_sizes["val"] = len(test_dataset)` — the
script reads the *test* subset's length here. -/
def dataset_sizes_val (sr : SplitResult) : ℕ := sr.test.length

/-- Model of `np.unique(y_train)` (source line 74): the ascending list of the
distinct values occurring in `y_train`, computed by filtering the
range up to the maximum (see `mem_npUnique`, `nodup_npUnique` and
`sorted_lt_npUnique` below for the characterising properties). -/
def npUnique (l : List ℕ) : List ℕ :=
  (List.range (l.foldr max 0 + 1)).filter (fun t => l.contains t)

/-- Source line 74:
`class_sample_count = np.array([len(np.where(y_train == t)[0]) for t in np.unique(y_train)])`.
Here `t` is a numpy scalar, so `y_train == t` is an element-wise
comparison with the list and the entry for `t` is the number of
occurrences of `t` in `y_train`. -/
def class_sample_count (y_train : List ℕ) : List ℕ :=
  (npUnique y_train).map (fun t => y_train.count t)

/-- Source line 77: `weight = 1. / class_sample_count` (element-wise
reciprocal of the count array). -/
def weight (y_train : List ℕ) : List ℚ :=
  (class_sample_count y_train).map (fun c : ℕ => 1 / (c : ℚ))

/-- A Python list comprehension whose body may raise: the whole
comprehension yields the list of results, or propagates the first
exception (`none`). -/
def pyListMap {α β : Type} (f : α → Option β) : List α → Option (List β)
  | [] => some []
  | a :: l =>
    match f a, pyListMap f l with
    | some b, some bs => some (b :: bs)
    | _, _ => none

/-- Source line 78:
`samples_weight = np.array([weight[t] for t in y_train])`.
`weight[t]` indexes the reciprocal-count array by the *label value*
`t`; numpy raises `IndexError` when `t ≥ len(weight)`, modelled as
`none`. -/
def samples_weight (y_train : List ℕ) : Option (List ℚ) :=
  pyListMap (fun t => (weight y_train).get? t) y_train

/-- Source lines 72–73:
`y_train = [full_dataset.targets[i] for i in train_dataset.indices]`.
The split hands out only valid indices, so we read with a default. -/
def y_train_of (targets : List ℕ) (idxs : List ℕ) : List ℕ :=
  idxs.map (fun i => targets.getD i 0)

/-- Source lines 70–84: `balanced_sampler(full_dataset, train_dataset)`
up to the point where the weight vector feeds `WeightedRandomSampler`
(the sampler stores the weights unchanged and draws
`len(samples_weight)` examples with replacement). -/
def balanced_sampler (targets : List ℕ) (idxs : List ℕ) : Option (List ℚ) :=
  samples_weight (y_train_of targets idxs)

/-- Source line 194: `model_conv.fc = nn.Linear(num_ftrs, 2)` — the
classifier distinguishes two classes. -/
def num_classes : ℕ := 2

/-- The total weight that a weight vector `w` assigns to the examples
of class `c` in the label list `y_train` (position-wise pairing). -/
def class_weight_sum (y_train : List ℕ) (w : List ℚ) (c : ℕ) : ℚ :=
  (((y_train.zip w).filter (fun p => p.1 == c)).map Prod.snd).sum

/-- The maximum entry of a score vector (0 for the empty vector, which
the model never produces). -/
def maxScore : List ℚ → ℚ
  | [] => 0
  | [x] => x
  | x :: y :: ys => max x (maxScore (y :: ys))

/-- Model of `_, preds = torch.max(outputs, 1)` (source line 136): the index of
the maximum entry of one score vector; for several maximal entries
torch returns the first (lowest) index. -/
def torchMaxIdx : List ℚ → ℕ
  | [] => 0
  | [_] => 0
  | x :: y :: ys => if maxScore (y :: ys) ≤ x then 0 else torchMaxIdx (y :: ys) + 1

/-- One batch as the epoch loop sees it (source lines 125–146): the
model's score vectors, the ground-truth labels, and the value of
`criterion(outputs, labels)` for the batch. -/
structure Batch where
  outputs : List (List ℚ)
  labels : List ℕ
  loss : ℚ

/-- Model of `inputs.size(0)` (source line 145): the number of examples in the
batch. -/
def batch_size (b : Batch) : ℕ := b.outputs.length

/-- The predicted classes for a batch (source line 136). -/
def preds (b : Batch) : List ℕ := b.outputs.map torchMaxIdx

/-- Model of `torch.sum(preds == labels.data)` (source line 146). -/
def batch_corrects (b : Batch) : ℕ :=
  ((preds b).zip b.labels).countP (fun p => p.1 == p.2)

/-- The two accumulators of the batch loop (source lines 121–122). -/
structure RunningStats where
  running_loss : ℚ
  running_corrects : ℕ

/-- Source lines 121–146: the statistics accumulated over all batches
of one phase:
`running_loss += loss.item() * inputs.size(0)` and
`running_corrects += torch.sum(preds == labels.data)`. -/
def phase_stats (batches : List Batch) : RunningStats :=
  batches.foldl
    (fun s b =>
      ⟨s.running_loss + b.loss * (batch_size b : ℚ),
       s.running_corrects + batch_corrects b⟩)
    ⟨0, 0⟩

/-- Source line 150: `epoch_loss = running_loss / dataset_sizes[phase]`. -/
def epoch_loss (batches : List Batch) (dsize : ℕ) : ℚ :=
  (phase_stats batches).running_loss / (dsize : ℚ)

/-- Source line 151:
`epoch_acc = running_corrects.double() / dataset_sizes[phase]`. -/
def epoch_acc (batches : List Batch) (dsize : ℕ) : ℚ :=
  ((phase_stats batches).running_corrects : ℚ) / (dsize : ℚ)

/-- The two phases of each epoch (source line 115). -/
inductive Phase
  | train
  | val
deriving DecidableEq

/-- The mutable torch state the batch loop can touch: the model's
parameters and the gradient buffers of the optimizer's bound
parameters. -/
structure TorchState (P G : Type) where
  params : P
  grads : G

/-- The primitive effects of the torch calls appearing in the batch
loop: `optimizer.zero_grad()` overwrites the gradient buffers with the
fixed all-zero value `zeroed`, `loss.backward()` accumulates into the
current buffers gradients computed from the current parameters and the
batch, `optimizer.step()` updates the parameters from the gradients.
The forward pass and the loss computation read the state but mutate
neither field. -/
structure TorchSemantics (P G B : Type) where
  zeroed : G
  backward : P → G → B → G
  step : P → G → P

/-- Source lines 125–146: the body of the batch loop.  In both phases
the gradients are zeroed (line 130) and a forward pass computes
outputs and loss (lines 135–137, pure reads); `loss.backward()` and
`optimizer.step()` run only when `phase == "train"` (lines 140–142). -/
def process_batch {P G B : Type} (sem : TorchSemantics P G B) (phase : Phase)
    (s : TorchState P G) (b : B) : TorchState P G :=
  let s1 : TorchState P G := ⟨s.params, sem.zeroed⟩
  match phase with
  | .train =>
    let g := sem.backward s1.params s1.grads b
    ⟨sem.step s1.params g, g⟩
  | .val => s1

/-- Model of `for inputs, labels in dataloaders[phase]` (source line 125): the
batch loop of one phase. -/
def run_phase {P G B : Type} (sem : TorchSemantics P G B) (phase : Phase)
    (batches : List B) (s : TorchState P G) : TorchState P G :=
  batches.foldl (process_batch sem phase) s

/-- One epoch of the loop on source line 115 (parameter-mutation view):
the train phase over the train loader, then the val phase over the val
loader. -/
def run_epoch_params {P G B : Type} (sem : TorchSemantics P G B)
    (bt bv : List B) (s : TorchState P G) : TorchState P G :=
  run_phase sem .val bv (run_phase sem .train bt s)

/-- The whole epoch loop (source line 110), one `(train batches, val
batches)` pair per epoch. -/
def run_epochs_params {P G B : Type} (sem : TorchSemantics P G B)
    (phases : List (List B × List B)) (s : TorchState P G) : TorchState P G :=
  phases.foldl (fun s p => run_epoch_params sem p.1 p.2 s) s

/-- The same epoch loop with every val phase erased: only the train
phases act on the state. -/
def run_train_phases_only {P G B : Type} (sem : TorchSemantics P G B)
    (phases : List (List B × List B)) (s : TorchState P G) : TorchState P G :=
  phases.foldl (fun s p => run_phase sem .train p.1 s) s

/-- The abstract effects one epoch of `train_model` has on the model
parameters (type `P`): `trainEpoch` is the train phase (forward,
backward and optimizer steps over all train batches, then
`scheduler.step()`, source lines 125–148) returning the updated
parameters and the train epoch loss; `valLoss`/`valAcc` are the loss
and accuracy the val phase computes for given parameters (the val
phase itself leaves the parameters unchanged). -/
structure EpochEffects (P : Type) where
  trainEpoch : P → P × ℚ
  valLoss : P → ℚ
  valAcc : P → ℚ

/-- The orchestrator state of `train_model`: the live parameters, the
checkpoint file `best_model_params.pt`, `best_acc`, and the two loss
sequences. -/
structure TMState (P : Type) where
  params : P
  best_model_params : P
  best_acc : ℚ
  train_losses : List ℚ
  val_losses : List ℚ

/-- Source lines 99–108: initial losses `[]`,
`torch.save(model.state_dict(), best_model_params_path)` and
`best_acc = 0.0`. -/
def tm_init {P : Type} (p : P) : TMState P :=
  ⟨p, p, 0, [], []⟩

/-- Source lines 110–162: one iteration of the epoch loop.  The train
phase updates the parameters and appends the train loss (line 154);
the val phase computes `epoch_loss`/`epoch_acc` on the updated
parameters and appends the val loss (line 156); if
`phase == "val" and epoch_acc > best_acc` (line 160) the checkpoint is
overwritten and `best_acc` updated (lines 161–162). -/
def tm_epoch {P : Type} (eff : EpochEffects P) (s : TMState P) : TMState P :=
  let p2 := (eff.trainEpoch s.params).1
  let tl := (eff.trainEpoch s.params).2
  let vl := eff.valLoss p2
  let va := eff.valAcc p2
  if s.best_acc < va then
    ⟨p2, p2, va, s.train_losses ++ [tl], s.val_losses ++ [vl]⟩
  else
    ⟨p2, s.best_model_params, s.best_acc, s.train_losses ++ [tl], s.val_losses ++ [vl]⟩

/-- The orchestrator state after `n` epochs. -/
def tm_run {P : Type} (eff : EpochEffects P) (n : ℕ) (p : P) : TMState P :=
  (tm_epoch eff)^[n] (tm_init p)

/-- Source lines 98–182: `train_model` runs the epoch loop and finally
reloads the best checkpoint
(`model.load_state_dict(torch.load(best_model_params_path))`,
line 181), so it returns the checkpointed parameters. -/
def train_model {P : Type} (eff : EpochEffects P) (n : ℕ) (p : P) : P :=
  (tm_run eff n p).best_model_params

/-- The two kinds of parameters of the network after the surgery on
source lines 189–194: the pretrained backbone and the fresh final
linear layer. -/
inductive ParamGroup
  | backbone
  | fc
deriving DecidableEq, Repr

/-- Source lines 189–194: `param.requires_grad = False` for every
pretrained parameter; the newly constructed `nn.Linear` replacing
`model_conv.fc` has `requires_grad=True` by default. -/
def requires_grad : ParamGroup → Bool
  | .backbone => false
  | .fc => true

/-- The configuration of one `optim.SGD` instance. -/
structure SGDOptimizer where
  bound : List ParamGroup
  lr : ℚ
  momentum : ℚ
deriving DecidableEq, Repr

/-- Source line 205:
`optimizer_conv = optim.SGD(model_conv.fc.parameters(), lr=lr, momentum=0.9)` —
a fresh optimizer bound to the final-layer parameters only. -/
def make_optimizer (lr : ℚ) : SGDOptimizer :=
  ⟨[ParamGroup.fc], lr, 9 / 10⟩

/-- Source line 208:
`exp_lr_scheduler = lr_scheduler.StepLR(optimizer_conv, step_size=7, gamma=0.1)`:
the learning rate in force after `e` scheduler steps. -/
def step_lr (lr0 : ℚ) (e : ℕ) : ℚ := lr0 * (1 / 10) ^ (e / 7)

/-- Source line 201: `learning_rates = [0.0005, 0.001, 0.005, 0.01, 0.05, 0.1]`
(the decimal literals denote these exact rationals). -/
def learning_rates : List ℚ :=
  [5 / 10000, 1 / 1000, 5 / 1000, 1 / 100, 5 / 100, 1 / 10]

/-- Source lines 203–212: the sweep loop.  `run` abstracts one call of
`train_model` given the freshly constructed optimizer of the candidate
and the incoming model; `model_conv` is reassigned to the result
(line 211) and never reset between candidates.  The second component
records `(candidate, resulting model)` in iteration order. -/
def sweep {P : Type} (run : SGDOptimizer → P → P) (m0 : P) : P × List (ℚ × P) :=
  learning_rates.foldl
    (fun acc lr =>
      (run (make_optimizer lr) acc.1, acc.2 ++ [(lr, run (make_optimizer lr) acc.1)]))
    (m0, [])

/-! ## Facts about the dataset partitioner -/

lemma train_size_le (N : ℕ) : train_size N ≤ N := by
  simp only [train_size]
  omega

lemma sizes_sum_le (N : ℕ) : train_size N + val_size N + test_size N ≤ N := by
  simp only [train_size, val_size, test_size]
  omega

lemma sizes_sum_eq_iff (N : ℕ) :
    train_size N + val_size N + test_size N = N ↔ (N - train_size N) % 2 = 0 := by
  simp only [train_size, val_size, test_size]
  omega

lemma random_split_isSome_iff (N : ℕ) (perm : List ℕ) :
    (random_split N perm).isSome ↔ (N - train_size N) % 2 = 0 := by
  rw [random_split]
  by_cases h : train_size N + val_size N + test_size N = N
  · simp [h, (sizes_sum_eq_iff N).mp h]
  · simp [h]
    have h2 : ¬ (N - train_size N) % 2 = 0 := fun hc => h ((sizes_sum_eq_iff N).mpr hc)
    omega

lemma random_split_some_elim {N : ℕ} {perm : List ℕ} {sr : SplitResult}
    (h : random_split N perm = some sr) :
    train_size N + val_size N + test_size N = N ∧
    sr.train = perm.take (train_size N) ∧
    sr.val = (perm.drop (train_size N)).take (val_size N) ∧
    sr.test = ((perm.drop (train_size N)).drop (val_size N)).take (test_size N) := by
  rw [random_split] at h
  by_cases hc : train_size N + val_size N + test_size N = N
  · rw [if_pos hc] at h
    obtain rfl := (Option.some_inj.mp h).symm
    exact ⟨hc, rfl, rfl, rfl⟩
  · rw [if_neg hc] at h
    exact absurd h (by simp)

lemma random_split_lengths {N : ℕ} {perm : List ℕ} {sr : SplitResult}
    (hlen : perm.length = N) (h : random_split N perm = some sr) :
    sr.train.length = train_size N ∧ sr.val.length = val_size N ∧
    sr.test.length = test_size N := by
  obtain ⟨hsum, ht, hv, hw⟩ := random_split_some_elim h
  rw [ht, hv, hw]
  simp only [List.length_take, List.length_drop, hlen]
  omega

/-- When the split succeeds, the permutation decomposes exactly into the
three consecutive chunks. -/
lemma random_split_decomp {N : ℕ} {perm : List ℕ} {sr : SplitResult}
    (hlen : perm.length = N) (h : random_split N perm = some sr) :
    perm = sr.train ++ (sr.val ++ sr.test) := by
  obtain ⟨hsum, ht, hv, hw⟩ := random_split_some_elim h
  rw [ht, hv, hw]
  have hw2 : ((perm.drop (train_size N)).drop (val_size N)).take (test_size N)
      = (perm.drop (train_size N)).drop (val_size N) := by
    apply List.take_of_length_le
    simp only [List.length_drop, hlen]
    omega
  rw [hw2, List.take_append_drop, List.take_append_drop]

lemma random_split_disjoint {N : ℕ} {perm : List ℕ} {sr : SplitResult}
    (hnd : perm.Nodup) (hlen : perm.length = N) (h : random_split N perm = some sr) :
    sr.train.Disjoint sr.val ∧ sr.train.Disjoint sr.test ∧ sr.val.Disjoint sr.test := by
  have hdec := random_split_decomp hlen h
  rw [hdec] at hnd
  rw [List.nodup_append] at hnd
  obtain ⟨-, hvw, htvw⟩ := hnd
  rw [List.nodup_append] at hvw
  rw [List.disjoint_append_right] at htvw
  exact ⟨htvw.1, htvw.2, hvw.2.2⟩

/-- Claim C4 (amended): for every dataset size `N ≥ 3` and every
duplicate-free index permutation, the partition succeeds exactly when
integer rounding leaves no remainder (`N - ⌊0.6N⌋` even); a successful
partition yields pairwise-disjoint subsets of sizes `⌊0.6N⌋` and twice
`⌊(N-⌊0.6N⌋)/2⌋`, summing to at most `N`.  When a remainder is left,
`random_split` raises a `ValueError` (modelled as `none`) instead of
silently dropping it. -/
theorem C4_partition_amended (N : ℕ) (perm : List ℕ) (h3 : 3 ≤ N)
    (hnd : perm.Nodup) (hlen : perm.length = N) :
    ((random_split N perm).isSome ↔ (N - train_size N) % 2 = 0) ∧
    (∀ sr : SplitResult, random_split N perm = some sr →
      sr.train.length = train_size N ∧ sr.val.length = val_size N ∧
      sr.test.length = test_size N ∧
      sr.train.Disjoint sr.val ∧ sr.train.Disjoint sr.test ∧
      sr.val.Disjoint sr.test ∧
      sr.train.length + sr.val.length + sr.test.length ≤ N) := by
  refine ⟨random_split_isSome_iff N perm, fun sr h => ?_⟩
  obtain ⟨ht, hv, hw⟩ := random_split_lengths hlen h
  obtain ⟨d1, d2, d3⟩ := random_split_disjoint hnd hlen h
  refine ⟨ht, hv, hw, d1, d2, d3, ?_⟩
  rw [ht, hv, hw]
  exact sizes_sum_le N

/-- Witness for C4 (amended) at `N = 5` with the identity permutation. -/
theorem C4_partition_amended_witness :
    ([0, 1, 2, 3, 4] : List ℕ).Nodup ∧
    ((random_split 5 [0, 1, 2, 3, 4]).isSome ↔ (5 - train_size 5) % 2 = 0) :=
  ⟨by decide, (C4_partition_amended 5 [0, 1, 2, 3, 4] (by norm_num) (by decide) (by decide)).1⟩

/-- Counterexample to C4 as stated: at dataset size `6` the rounded
sizes are `3 + 1 + 1 = 5 < 6`, and instead of silently dropping the
remainder `random_split` raises (`none`): the partition does not
complete without error. -/
theorem C4_counterexample : 3 ≤ 6 ∧ random_split 6 (List.range 6) = none :=
  ⟨by norm_num, by decide⟩

/-- Claim C9: for every dataset of positive size `N < 3` the partitioner
does not silently hand back an empty subset: `random_split` raises a
`ValueError` (modelled as `none`).  (`N = 0` never reaches the
partitioner: `ImageFolder` already fails on a dataset with no images,
per the spec's fail-fast rule for empty datasets.) -/
theorem C9_small_dataset (N : ℕ) (perm : List ℕ) (h0 : 0 < N) (h3 : N < 3) :
    random_split N perm = none := by
  interval_cases N
  · norm_num [random_split, train_size, val_size, test_size]
  · norm_num [random_split, train_size, val_size, test_size]

/-- Witness for C9 at `N = 2`. -/
theorem C9_small_dataset_witness : 0 < 2 ∧ random_split 2 [0, 1] = none :=
  ⟨by norm_num, C9_small_dataset 2 [0, 1] (by norm_num) (by norm_num)⟩

/-- Claim C10: whenever the partition succeeds, the denominator
`dataset_sizes["val"]` — read from the *test* subset's length on
source line 94 — equals the validation subset's length (and both equal
`val_size N`), because `test_size` is defined as `val_size` on source
line 45.  Validation statistics are therefore normalised by the
correct subset size. -/
theorem C10_val_denominator (N : ℕ) (perm : List ℕ) (sr : SplitResult)
    (hlen : perm.length = N) (h : random_split N perm = some sr) :
    dataset_sizes_val sr = sr.val.length ∧ dataset_sizes_val sr = val_size N := by
  obtain ⟨ht, hv, hw⟩ := random_split_lengths hlen h
  unfold dataset_sizes_val
  constructor
  · rw [hw, hv]
    rfl
  · rw [hw]
    rfl

/-- Witness for C10 at `N = 5` with the identity permutation. -/
theorem C10_val_denominator_witness :
    dataset_sizes_val ⟨[0, 1, 2], [3], [4]⟩ = ([3] : List ℕ).length ∧
    dataset_sizes_val ⟨[0, 1, 2], [3], [4]⟩ = val_size 5 :=
  C10_val_denominator 5 [0, 1, 2, 3, 4] ⟨[0, 1, 2], [3], [4]⟩ (by decide) (by decide)

/-! ## Facts about the class-balanced sampler -/

lemma pyListMap_eq_some_iff {α β : Type} {f : α → Option β} {l : List α} {w : List β} :
    pyListMap f l = some w ↔ List.Forall₂ (fun a b => f a = some b) l w := by
  induction l generalizing w with
  | nil =>
    constructor
    · intro h
      rw [pyListMap] at h
      obtain rfl := Option.some_inj.mp h
      exact List.Forall₂.nil
    · intro h
      cases h
      rfl
  | cons a l ih =>
    constructor
    · intro h
      rw [pyListMap] at h
      rcases hfa : f a with _ | b <;> rcases hl : pyListMap f l with _ | bs <;>
        rw [hfa, hl] at h <;> simp only [] at h
      · exact absurd h (by simp)
      · exact absurd h (by simp)
      · exact absurd h (by simp)
      · obtain rfl := Option.some_inj.mp h
        exact List.Forall₂.cons hfa (ih.mp hl)
    · intro h
      rcases h with _ | ⟨hab, htail⟩
      rw [pyListMap, hab, ih.mpr htail]

lemma pyListMap_eq_none_iff {α β : Type} {f : α → Option β} {l : List α} :
    pyListMap f l = none ↔ ∃ a ∈ l, f a = none := by
  induction l with
  | nil => simp [pyListMap]
  | cons a l ih =>
    rw [pyListMap]
    rcases hfa : f a with _ | b <;> rcases hl : pyListMap f l with _ | bs
    · simp [hfa]
    · simp [hfa]
    · simp only []
      constructor
      · intro _
        obtain ⟨x, hx, hfx⟩ := ih.mp hl
        exact ⟨x, List.mem_cons_of_mem a hx, hfx⟩
      · intro _
        trivial
    · simp only []
      constructor
      · intro h
        exact absurd h (by simp)
      · rintro ⟨x, hx, hfx⟩
        rcases List.mem_cons.mp hx with rfl | hx2
        · rw [hfa] at hfx
          exact absurd hfx (by simp)
        · have : pyListMap f l = none := ih.mpr ⟨x, hx2, hfx⟩
          rw [hl] at this
          exact absurd this (by simp)

lemma forall₂_some_isSome {α β : Type} {f : α → Option β} :
    ∀ {l : List α} {w : List β}, List.Forall₂ (fun a b => f a = some b) l w →
      ∀ a ∈ l, (f a).isSome := by
  intro l w h
  induction h with
  | nil =>
    intro a ha
    cases ha
  | cons hab htail ih =>
    intro x hx
    rcases List.mem_cons.mp hx with rfl | hx2
    · rw [hab]
      rfl
    · exact ih x hx2

lemma forall₂_some_eq_map {α β : Type} {f : α → Option β} {g : α → β}
    {l : List α} {w : List β}
    (h : List.Forall₂ (fun a b => f a = some b) l w)
    (hg : ∀ a ∈ l, ∀ b, f a = some b → b = g a) :
    w = l.map g := by
  induction h with
  | nil => rfl
  | cons hab htail ih =>
    rw [List.map_cons, ih (fun a ha b hb => hg a (List.mem_cons_of_mem _ ha) b hb)]
    rw [hg _ (List.mem_cons_self _ _) _ hab]

lemma le_foldr_max (l : List ℕ) : ∀ t ∈ l, t ≤ l.foldr max 0 := by
  induction l with
  | nil =>
    intro t ht
    cases ht
  | cons a l ih =>
    intro t ht
    rcases List.mem_cons.mp ht with rfl | ht2
    · exact le_max_left _ _
    · exact le_trans (ih t ht2) (le_max_right _ _)

lemma mem_npUnique {l : List ℕ} {t : ℕ} : t ∈ npUnique l ↔ t ∈ l := by
  simp only [npUnique, List.mem_filter, List.mem_range]
  constructor
  · intro h
    simpa using h.2
  · intro h
    exact ⟨Nat.lt_succ_of_le (le_foldr_max l t h), by simpa using h⟩

lemma nodup_npUnique (l : List ℕ) : (npUnique l).Nodup :=
  (List.nodup_range _).filter _

lemma sorted_lt_npUnique (l : List ℕ) : (npUnique l).Pairwise (· < ·) :=
  (List.pairwise_lt_range _).filter _

lemma toFinset_npUnique (l : List ℕ) : (npUnique l).toFinset = l.toFinset := by
  ext t
  simp [mem_npUnique]

lemma length_npUnique (l : List ℕ) : (npUnique l).length = l.toFinset.card := by
  rw [← toFinset_npUnique l, List.toFinset_card_of_nodup (nodup_npUnique l)]

lemma length_weight (l : List ℕ) : (weight l).length = (npUnique l).length := by
  rw [weight, List.length_map, class_sample_count, List.length_map]

lemma npUnique_eq_range {l : List ℕ} (h : ∀ t ∈ l, t < (npUnique l).length) :
    npUnique l = List.range ((npUnique l).length) := by
  have hsub : l.toFinset ⊆ Finset.range ((npUnique l).length) := by
    intro t ht
    rw [Finset.mem_range]
    exact h t (List.mem_toFinset.mp ht)
  have hcard : (Finset.range ((npUnique l).length)).card ≤ l.toFinset.card := by
    rw [Finset.card_range, length_npUnique]
  have hset : l.toFinset = Finset.range ((npUnique l).length) :=
    Finset.eq_of_subset_of_card_le hsub hcard
  apply List.eq_of_perm_of_sorted
    (List.perm_of_nodup_nodup_toFinset_eq (nodup_npUnique l) (List.nodup_range _) ?_)
    ((sorted_lt_npUnique l).imp le_of_lt)
    ((List.pairwise_lt_range _).imp le_of_lt)
  rw [toFinset_npUnique, hset]
  ext t
  simp

lemma weight_eq_map (l : List ℕ) :
    weight l = (npUnique l).map (fun t => 1 / (l.count t : ℚ)) := by
  rw [weight, class_sample_count, List.map_map]
  rfl

lemma weight_get_contiguous {l : List ℕ} (h : ∀ t ∈ l, t < (npUnique l).length)
    {t : ℕ} (ht : t < (npUnique l).length) :
    (weight l).get? t = some (1 / (l.count t : ℚ)) := by
  rw [weight_eq_map, npUnique_eq_range h, List.get?_map, List.get?_range ht]
  rfl

/-- When `samples_weight` succeeds, every example got weight
`1/count(its label)`. -/
lemma samples_weight_spec {yt : List ℕ} {w : List ℚ}
    (h : samples_weight yt = some w) :
    w = yt.map (fun t => 1 / (yt.count t : ℚ)) := by
  rw [samples_weight] at h
  have hf := pyListMap_eq_some_iff.mp h
  have hb : ∀ t ∈ yt, t < (npUnique yt).length := by
    intro t ht
    have hs := forall₂_some_isSome hf t ht
    rw [Option.isSome_iff_exists] at hs
    obtain ⟨b, hbb⟩ := hs
    obtain ⟨hlt, -⟩ := List.get?_eq_some.mp hbb
    rw [length_weight] at hlt
    exact hlt
  refine forall₂_some_eq_map hf ?_
  intro a ha b hab
  rw [weight_get_contiguous hb (hb a ha)] at hab
  exact (Option.some_inj.mp hab).symm

lemma zip_map_self {α β : Type} (g : α → β) (l : List α) :
    l.zip (l.map g) = l.map (fun a => (a, g a)) := by
  induction l with
  | nil => rfl
  | cons a l ih => simp [ih]

lemma filter_eq_replicate (yt : List ℕ) (c : ℕ) :
    yt.filter (fun a => a == c) = List.replicate (yt.count c) c := by
  induction yt with
  | nil => rfl
  | cons a l ih =>
    by_cases h : a = c
    · subst h
      simp [List.filter_cons, List.count_cons, ih, List.replicate_succ]
    · simp [List.filter_cons, h, List.count_cons, ih]

lemma class_weight_sum_map (g : ℕ → ℚ) (yt : List ℕ) (c : ℕ) :
    class_weight_sum yt (yt.map g) c = (yt.count c : ℚ) * g c := by
  rw [class_weight_sum, zip_map_self]
  have hfil : (yt.map (fun a => (a, g a))).filter (fun p => p.1 == c)
      = (yt.filter (fun a => a == c)).map (fun a => (a, g a)) := by
    induction yt with
    | nil => rfl
    | cons a l ih =>
      by_cases h : a = c
      · subst h
        simp [List.filter_cons, ih]
      · simp [List.filter_cons, h, ih]
  rw [hfil, filter_eq_replicate, List.map_map, List.map_replicate]
  simp [List.sum_replicate, nsmul_eq_mul]

/-- Claim C1: whenever `balanced_sampler` produces a weight vector, it
assigns example `i` the weight `1/count(class(i))` (stated as the
vector-level identity), and consequently for every class `c` present
in the training subset the weights of its examples sum to `1` (each
present class has a strictly positive count, which cancels
`count(c) · (1/count(c))`). -/
theorem C1_balanced_weights (targets idxs : List ℕ) (w : List ℚ)
    (h : balanced_sampler targets idxs = some w) :
    w = (y_train_of targets idxs).map
        (fun t : ℕ => 1 / ((y_train_of targets idxs).count t : ℚ)) ∧
    ∀ c ∈ y_train_of targets idxs,
      class_weight_sum (y_train_of targets idxs) w c = 1 := by
  rw [balanced_sampler] at h
  have hw := samples_weight_spec h
  refine ⟨hw, fun c hc => ?_⟩
  rw [hw, class_weight_sum_map]
  have hpos : 0 < (y_train_of targets idxs).count c := List.count_pos_iff_mem.mpr hc
  rw [mul_one_div]
  exact div_self (by exact_mod_cast hpos.ne')

/-- Witness for C1: full label list `[0, 1, 0]`, training indices
`[0, 1, 2]`: class 0 has count 2 and class 1 count 1, the produced
weights are `[1/2, 1, 1/2]`, and class 0's weights sum to `1`. -/
theorem C1_balanced_weights_witness :
    balanced_sampler [0, 1, 0] [0, 1, 2] = some [1 / 2, 1, 1 / 2] ∧
    class_weight_sum (y_train_of [0, 1, 0] [0, 1, 2]) [1 / 2, 1, 1 / 2] 0 = 1 := by
  have h : balanced_sampler [0, 1, 0] [0, 1, 2] = some [1 / 2, 1, 1 / 2] := by
    norm_num [balanced_sampler, y_train_of, samples_weight, pyListMap, weight,
      class_sample_count, npUnique, List.range_succ, List.count_cons]
  exact ⟨h, (C1_balanced_weights [0, 1, 0] [0, 1, 2] [1 / 2, 1, 1 / 2] h).2 0 (by decide)⟩

/-- Counterexample to C5 as stated: with full labels `[0, 0, 0]` and
training indices `[0, 1, 2]`, the class `1` required by the two-class
model (`nn.Linear(num_ftrs, 2)`) has count zero in the training
subset, yet `balanced_sampler` succeeds with the (uniform) weights
`[1/3, 1/3, 1/3]`: the program proceeds to training instead of failing
loudly. -/
theorem C5_counterexample :
    1 < num_classes ∧ (y_train_of [0, 0, 0] [0, 1, 2]).count 1 = 0 ∧
    balanced_sampler [0, 0, 0] [0, 1, 2] = some [1 / 3, 1 / 3, 1 / 3] := by
  refine ⟨by norm_num [num_classes], by decide, ?_⟩
  norm_num [balanced_sampler, y_train_of, samples_weight, pyListMap, weight,
    class_sample_count, npUnique, List.range_succ, List.count_cons]

/-- Claim C5 (amended): `balanced_sampler` never divides by zero — every
counted class is present, so every entry of `class_sample_count` is
strictly positive — and it raises an `IndexError` (before any training
begins) exactly when some training label is at least the number of
distinct training labels, i.e. when a zero-count class has a smaller
index than some present class.  When only the highest-indexed classes
are missing, no error is raised and training silently proceeds. -/
theorem C5_zero_count_amended (yt : List ℕ) :
    (samples_weight yt = none ↔ ∃ t ∈ yt, (npUnique yt).length ≤ t) ∧
    ∀ cnt ∈ class_sample_count yt, 0 < cnt := by
  constructor
  · rw [samples_weight, pyListMap_eq_none_iff]
    constructor
    · rintro ⟨t, ht, hnone⟩
      exact ⟨t, ht, by rwa [List.get?_eq_none, length_weight] at hnone⟩
    · rintro ⟨t, ht, hge⟩
      refine ⟨t, ht, ?_⟩
      rw [List.get?_eq_none, length_weight]
      exact hge
  · intro cnt hcnt
    rw [class_sample_count] at hcnt
    obtain ⟨t, htu, rfl⟩ := List.mem_map.mp hcnt
    exact List.count_pos_iff_mem.mpr (mem_npUnique.mp htu)

/-- Witness for C5 (amended): training labels `[1]` (class 0 absent,
label 1 at least the single distinct label): the sampler raises. -/
theorem C5_zero_count_amended_witness : samples_weight [1] = none :=
  (C5_zero_count_amended [1]).1.mpr ⟨1, by decide, by decide⟩

/-! ## Facts about the epoch runner -/

lemma maxScore_cons (x : ℚ) (l : List ℚ) (hl : l ≠ []) :
    maxScore (x :: l) = max x (maxScore l) := by
  match l with
  | [] => exact absurd rfl hl
  | y :: ys => rfl

lemma torchMaxIdx_cons (x : ℚ) (l : List ℚ) (hl : l ≠ []) :
    torchMaxIdx (x :: l) = if maxScore l ≤ x then 0 else torchMaxIdx l + 1 := by
  match l with
  | [] => exact absurd rfl hl
  | y :: ys => rfl

lemma torchMaxIdx_lt_length (l : List ℚ) (hl : l ≠ []) :
    torchMaxIdx l < l.length := by
  induction l with
  | nil => exact absurd rfl hl
  | cons x xs ih =>
    by_cases hxs : xs = []
    · subst hxs
      simp [torchMaxIdx]
    · rw [torchMaxIdx_cons x xs hxs]
      by_cases h : maxScore xs ≤ x
      · simp [h]
      · rw [if_neg h]
        simpa using ih hxs

lemma getD_torchMaxIdx (l : List ℚ) (hl : l ≠ []) :
    l.getD (torchMaxIdx l) 0 = maxScore l := by
  induction l with
  | nil => exact absurd rfl hl
  | cons x xs ih =>
    by_cases hxs : xs = []
    · subst hxs
      simp [torchMaxIdx, maxScore]
    · rw [torchMaxIdx_cons x xs hxs, maxScore_cons x xs hxs]
      by_cases h : maxScore xs ≤ x
      · rw [if_pos h]
        simp [max_eq_left h]
      · rw [if_neg h]
        rw [List.getD_cons_succ, ih hxs, max_eq_right (le_of_lt (not_le.mp h))]

lemma getD_le_maxScore (l : List ℚ) (j : ℕ) (hj : j < l.length) :
    l.getD j 0 ≤ maxScore l := by
  induction l generalizing j with
  | nil => simp at hj
  | cons x xs ih =>
    by_cases hxs : xs = []
    · subst hxs
      simp at hj
      subst hj
      simp [maxScore]
    · rw [maxScore_cons x xs hxs]
      match j with
      | 0 => exact le_max_left _ _
      | j + 1 =>
        rw [List.getD_cons_succ]
        exact le_trans (ih j (by simpa using hj)) (le_max_right _ _)

lemma getD_lt_of_lt_torchMaxIdx (l : List ℚ) (j : ℕ) (hj : j < torchMaxIdx l) :
    l.getD j 0 < maxScore l := by
  induction l generalizing j with
  | nil => simp [torchMaxIdx] at hj
  | cons x xs ih =>
    by_cases hxs : xs = []
    · subst hxs
      simp [torchMaxIdx] at hj
    · rw [torchMaxIdx_cons x xs hxs] at hj
      by_cases h : maxScore xs ≤ x
      · rw [if_pos h] at hj
        simp at hj
      · rw [if_neg h] at hj
        rw [maxScore_cons x xs hxs, max_eq_right (le_of_lt (not_le.mp h))]
        match j with
        | 0 => exact not_le.mp h
        | j + 1 =>
          rw [List.getD_cons_succ]
          exact ih j (by omega)

lemma phase_stats_spec (batches : List Batch) :
    phase_stats batches =
      ⟨(batches.map (fun b => b.loss * (batch_size b : ℚ))).sum,
       (batches.map batch_corrects).sum⟩ := by
  rw [phase_stats]
  suffices h : ∀ s : RunningStats,
      batches.foldl
        (fun s b =>
          ⟨s.running_loss + b.loss * (batch_size b : ℚ),
           s.running_corrects + batch_corrects b⟩) s =
      ⟨s.running_loss + (batches.map (fun b => b.loss * (batch_size b : ℚ))).sum,
       s.running_corrects + (batches.map batch_corrects).sum⟩ by
    rw [h ⟨0, 0⟩]
    simp
  intro s
  induction batches generalizing s with
  | nil => simp
  | cons b bs ih =>
    rw [List.foldl_cons, ih]
    simp [RunningStats.mk.injEq]
    constructor
    · ring
    · omega

/-- Claim C2: one phase of `train_model` accumulates
`sum(batch_loss * batch_size)` and `sum(correct_predictions)` over all
batches and divides both by the subset size (which equals the total
number of examples over the batches); the predicted class of an
example is the index of the maximum entry of its score vector, ties
broken by the lowest index: no entry exceeds the entry at the
predicted index, and every entry before it is strictly smaller. -/
theorem C2_epoch_statistics (batches : List Batch) (dsize : ℕ)
    (hd : (batches.map batch_size).sum = dsize) :
    epoch_loss batches dsize
        = (batches.map (fun b => b.loss * (batch_size b : ℚ))).sum / (dsize : ℚ) ∧
    epoch_acc batches dsize
        = ((batches.map batch_corrects).sum : ℚ) / (dsize : ℚ) ∧
    (∀ scores : List ℚ, ∀ j, j < scores.length →
      scores.getD j 0 ≤ scores.getD (torchMaxIdx scores) 0) ∧
    (∀ scores : List ℚ, ∀ j, j < torchMaxIdx scores →
      scores.getD j 0 < scores.getD (torchMaxIdx scores) 0) := by
  refine ⟨?_, ?_, ?_, ?_⟩
  · rw [epoch_loss, phase_stats_spec]
  · rw [epoch_acc, phase_stats_spec]
  · intro scores j hj
    have hne : scores ≠ [] := by
      intro hnil
      rw [hnil] at hj
      simp at hj
    rw [getD_torchMaxIdx scores hne]
    exact getD_le_maxScore scores j hj
  · intro scores j hj
    have hne : scores ≠ [] := by
      intro hnil
      rw [hnil] at hj
      simp [torchMaxIdx] at hj
    rw [getD_torchMaxIdx scores hne]
    exact getD_lt_of_lt_torchMaxIdx scores j hj

/-- Witness for C2: a single batch of two examples with scores
`[1, 2]` and `[3, 0]`, labels `[1, 0]` and batch loss `1/2`. -/
theorem C2_epoch_statistics_witness :
    epoch_loss [⟨[[1, 2], [3, 0]], [1, 0], 1 / 2⟩] 2
      = (([⟨[[1, 2], [3, 0]], [1, 0], 1 / 2⟩] : List Batch).map
          (fun b => b.loss * (batch_size b : ℚ))).sum / ((2 : ℕ) : ℚ) :=
  (C2_epoch_statistics [⟨[[1, 2], [3, 0]], [1, 0], 1 / 2⟩] 2 (by decide)).1

/-! ## Facts about parameter mutation across phases -/

lemma run_phase_val_params {P G B : Type} (sem : TorchSemantics P G B)
    (batches : List B) (s : TorchState P G) :
    (run_phase sem .val batches s).params = s.params := by
  induction batches generalizing s with
  | nil => rfl
  | cons b bs ih =>
    rw [run_phase, List.foldl_cons]
    exact ih (process_batch sem .val s b)

lemma process_batch_train_congr {P G B : Type} (sem : TorchSemantics P G B)
    {s1 s2 : TorchState P G} (h : s1.params = s2.params) (b : B) :
    process_batch sem .train s1 b = process_batch sem .train s2 b := by
  show (⟨sem.step s1.params (sem.backward s1.params sem.zeroed b),
         sem.backward s1.params sem.zeroed b⟩ : TorchState P G) = _
  rw [h]
  rfl

lemma run_phase_train_congr {P G B : Type} (sem : TorchSemantics P G B)
    (batches : List B) {s1 s2 : TorchState P G} (h : s1.params = s2.params) :
    (run_phase sem .train batches s1).params
      = (run_phase sem .train batches s2).params := by
  cases batches with
  | nil => exact h
  | cons b bs =>
    rw [run_phase, run_phase, List.foldl_cons, List.foldl_cons,
      process_batch_train_congr sem h b]

lemma run_epochs_params_train_only {P G B : Type} (sem : TorchSemantics P G B) :
    ∀ (phases : List (List B × List B)) (s1 s2 : TorchState P G),
      s1.params = s2.params →
      (run_epochs_params sem phases s1).params
        = (run_train_phases_only sem phases s2).params := by
  intro phases
  induction phases with
  | nil =>
    intro s1 s2 h
    exact h
  | cons p ps ih =>
    intro s1 s2 h
    rw [run_epochs_params, run_train_phases_only, List.foldl_cons, List.foldl_cons]
    apply ih
    rw [run_epoch_params, run_phase_val_params]
    exact run_phase_train_congr sem p.1 h

/-- Claim C6: an evaluate-mode batch performs no gradient computation and
no parameter update: it leaves the parameters untouched and its only
effect on the gradients is the unconditional `optimizer.zero_grad()`;
a whole val phase leaves the parameters untouched; and across the
whole epoch loop the parameters equal those produced by the train
phases alone — the Model Parameter Set is mutated only during
train-mode phases. -/
theorem C6_eval_no_update {P G B : Type} (sem : TorchSemantics P G B) :
    (∀ (s : TorchState P G) (b : B),
      (process_batch sem .val s b).params = s.params ∧
      (process_batch sem .val s b).grads = sem.zeroed) ∧
    (∀ (batches : List B) (s : TorchState P G),
      (run_phase sem .val batches s).params = s.params) ∧
    (∀ (phases : List (List B × List B)) (s : TorchState P G),
      (run_epochs_params sem phases s).params
        = (run_train_phases_only sem phases s).params) := by
  refine ⟨fun s b => ⟨rfl, rfl⟩, run_phase_val_params sem, fun phases s => ?_⟩
  exact run_epochs_params_train_only sem phases s s rfl

/-- Witness for C6 with a concrete semantics over `P = G = B = ℚ`: a
val-phase batch leaves the parameters of the state `⟨1, 5⟩` untouched. -/
theorem C6_eval_no_update_witness :
    (process_batch (⟨0, fun p g b => g + p * b, fun p g => p - g⟩ :
        TorchSemantics ℚ ℚ ℚ) .val ⟨1, 5⟩ 2).params
      = ((⟨1, 5⟩ : TorchState ℚ ℚ)).params :=
  ((C6_eval_no_update ⟨0, fun p g b => g + p * b, fun p g => p - g⟩).1 ⟨1, 5⟩ 2).1

/-! ## Facts about the training orchestrator -/

lemma tm_epoch_best_acc_le {P : Type} (eff : EpochEffects P) (s : TMState P) :
    s.best_acc ≤ (tm_epoch eff s).best_acc := by
  by_cases h : s.best_acc < eff.valAcc (eff.trainEpoch s.params).1
  · rw [tm_epoch]
    simp only [if_pos h]
    exact le_of_lt h
  · rw [tm_epoch]
    simp only [if_neg h]
    exact le_rfl

lemma tm_run_succ {P : Type} (eff : EpochEffects P) (n : ℕ) (p : P) :
    tm_run eff (n + 1) p = tm_epoch eff (tm_run eff n p) := by
  rw [tm_run, tm_run, Function.iterate_succ_apply']

lemma tm_run_checkpoint_inv {P : Type} (eff : EpochEffects P) (n : ℕ) (p : P) :
    eff.valAcc (tm_run eff n p).best_model_params = (tm_run eff n p).best_acc ∨
    ((tm_run eff n p).best_model_params = p ∧ (tm_run eff n p).best_acc = 0) := by
  induction n with
  | zero => exact Or.inr ⟨rfl, rfl⟩
  | succ n ih =>
    rw [tm_run_succ]
    by_cases h : (tm_run eff n p).best_acc
        < eff.valAcc (eff.trainEpoch (tm_run eff n p).params).1
    · left
      rw [tm_epoch]
      simp only [if_pos h]
    · rcases ih with h2 | h2
      · left
        rw [tm_epoch]
        simp only [if_neg h]
        exact h2
      · right
        rw [tm_epoch]
        simp only [if_neg h]
        exact h2

/-- Claim C3: the stored checkpoint is overwritten — and `best_acc`
updated — exactly when a validation accuracy strictly greater than the
current `best_acc` is observed, and `train_model` finally returns the
parameters reloaded from the stored best checkpoint (so the final
epoch's live parameters are discarded unless they were checkpointed):
the returned parameters are the checkpoint contents, which carry the
validation accuracy `best_acc` (or are the initial parameters when no
epoch ever improved on `best_acc = 0`). -/
theorem C3_checkpoint_policy {P : Type} (eff : EpochEffects P) (n : ℕ) (p : P) :
    (∀ s : TMState P,
      (s.best_acc < eff.valAcc (eff.trainEpoch s.params).1 →
        (tm_epoch eff s).best_model_params = (eff.trainEpoch s.params).1 ∧
        (tm_epoch eff s).best_acc = eff.valAcc (eff.trainEpoch s.params).1) ∧
      (¬ s.best_acc < eff.valAcc (eff.trainEpoch s.params).1 →
        (tm_epoch eff s).best_model_params = s.best_model_params ∧
        (tm_epoch eff s).best_acc = s.best_acc)) ∧
    train_model eff n p = (tm_run eff n p).best_model_params ∧
    (eff.valAcc (train_model eff n p) = (tm_run eff n p).best_acc ∨
      (train_model eff n p = p ∧ (tm_run eff n p).best_acc = 0)) := by
  refine ⟨fun s => ⟨fun h => ?_, fun h => ?_⟩, rfl, tm_run_checkpoint_inv eff n p⟩
  · rw [tm_epoch]
    simp [if_pos h]
  · rw [tm_epoch]
    simp [if_neg h]

/-- Witness for C3 with a concrete run over `P = ℚ`: the train phase
adds one to the parameter and the validation accuracy is the parameter
itself. -/
theorem C3_checkpoint_policy_witness :
    train_model ⟨fun q => (q + 1, 0), fun _ => 0, fun q => q⟩ 1 (0 : ℚ)
      = (tm_run ⟨fun q => (q + 1, 0), fun _ => 0, fun q => q⟩ 1 (0 : ℚ)).best_model_params :=
  (C3_checkpoint_policy ⟨fun q => (q + 1, 0), fun _ => 0, fun q => q⟩ 1 (0 : ℚ)).2.1

/-- Claim C7: within one run of `train_model` the `best_acc` value is
non-decreasing across epochs. -/
theorem C7_best_acc_monotone {P : Type} (eff : EpochEffects P) (p : P)
    (m n : ℕ) (h : m ≤ n) :
    (tm_run eff m p).best_acc ≤ (tm_run eff n p).best_acc := by
  induction h with
  | refl => exact le_rfl
  | step h2 ih =>
    rw [tm_run_succ]
    exact le_trans ih (tm_epoch_best_acc_le eff _)

/-- Witness for C7 with the concrete run of the C3 witness, one epoch
against two. -/
theorem C7_best_acc_monotone_witness :
    (tm_run ⟨fun q => (q + 1, 0), fun _ => 0, fun q => q⟩ 1 (0 : ℚ)).best_acc
      ≤ (tm_run ⟨fun q => (q + 1, 0), fun _ => 0, fun q => q⟩ 2 (0 : ℚ)).best_acc :=
  C7_best_acc_monotone ⟨fun q => (q + 1, 0), fun _ => 0, fun q => q⟩ (0 : ℚ) 1 2
    (by norm_num)

/-! ## Facts about the learning-rate sweep -/

/-- Claim C8: the sweep iterates the candidate list once in order (the
recorded candidates are exactly `learning_rates` in order); each
candidate gets a fresh SGD optimizer bound to the trainable final-layer
parameter subset at that rate with momentum `0.9`; the step-decay
schedule multiplies the rate by `0.1` every 7 epochs and leaves it
unchanged within the first 7; and the model is threaded, not reset:
each candidate's run starts from the model the previous candidate's
run returned (its restored best checkpoint). -/
theorem C8_sweep_order_and_threading {P : Type} (run : SGDOptimizer → P → P) (m0 : P) :
    ((sweep run m0).2.map Prod.fst = learning_rates) ∧
    (∀ lr : ℚ, make_optimizer lr = ⟨[ParamGroup.fc], lr, 9 / 10⟩ ∧
      ∀ g ∈ (make_optimizer lr).bound, requires_grad g = true) ∧
    (∀ (lr0 : ℚ) (e : ℕ), step_lr lr0 (e + 7) = (1 / 10) * step_lr lr0 e ∧
      (e < 7 → step_lr lr0 e = lr0)) ∧
    (sweep run m0 =
      (run (make_optimizer (1 / 10))
        (run (make_optimizer (5 / 100))
          (run (make_optimizer (1 / 100))
            (run (make_optimizer (5 / 1000))
              (run (make_optimizer (1 / 1000))
                (run (make_optimizer (5 / 10000)) m0))))),
       [(5 / 10000, run (make_optimizer (5 / 10000)) m0),
        (1 / 1000, run (make_optimizer (1 / 1000))
          (run (make_optimizer (5 / 10000)) m0)),
        (5 / 1000, run (make_optimizer (5 / 1000))
          (run (make_optimizer (1 / 1000))
            (run (make_optimizer (5 / 10000)) m0))),
        (1 / 100, run (make_optimizer (1 / 100))
          (run (make_optimizer (5 / 1000))
            (run (make_optimizer (1 / 1000))
              (run (make_optimizer (5 / 10000)) m0)))),
        (5 / 100, run (make_optimizer (5 / 100))
          (run (make_optimizer (1 / 100))
            (run (make_optimizer (5 / 1000))
              (run (make_optimizer (1 / 1000))
                (run (make_optimizer (5 / 10000)) m0))))),
        (1 / 10, run (make_optimizer (1 / 10))
          (run (make_optimizer (5 / 100))
            (run (make_optimizer (1 / 100))
              (run (make_optimizer (5 / 1000))
                (run (make_optimizer (1 / 1000))
                  (run (make_optimizer (5 / 10000)) m0))))))])) := by
  refine ⟨rfl, fun lr => ⟨rfl, ?_⟩, fun lr0 e => ⟨?_, fun he => ?_⟩, rfl⟩
  · intro g hg
    rw [make_optimizer] at hg
    simp only [List.mem_singleton] at hg
    rw [hg]
    rfl
  · rw [step_lr, step_lr, Nat.add_div_right _ (by norm_num), pow_succ]
    ring
  · rw [step_lr, Nat.div_eq_of_lt he, pow_zero, mul_one]

/-- Witness for C8: the in-order candidate record with a trivial `run`
over `P = ℚ`. -/
theorem C8_sweep_order_and_threading_witness :
    (sweep (fun _ m => m) (0 : ℚ)).2.map Prod.fst = learning_rates :=
  (C8_sweep_order_and_threading (fun _ m => m) (0 : ℚ)).1

end CNNResNet
